import Mathlib

/-!
Shallow embedding of `src/regexp/regexp.rs` (grex's `RegExp` type): the
canonicalization of example strings performed by `RegExp::from`, the
feature-pass orchestration of `RegExp::grapheme_clusters`, the renderer
(`Display for RegExp`) and the verbose-mode reformatter
(`apply_verbose_mode` with its tokenizing `VERBOSE_MODE_REGEX`),
together with theorems settling the specification's claims.
-/

set_option maxHeartbeats 1000000

/-- The configuration consumed by `RegExp` (`RegExpConfig`, defined in
`regexp/config.rs` outside the sources at hand). Modelled from the spec
(section 6): a fixed set of boolean flags; the accessor names are the
ones used in `regexp.rs`. -/
structure RegExpConfig where
  is_case_insensitive_matching : Bool
  is_char_class_feature_enabled : Bool
  is_repetition_converted : Bool
  is_capturing_group_enabled : Bool
  is_output_colorized : Bool
  is_verbose_mode_enabled : Bool

/-- An example string, viewed as its sequence of UTF-8 code units
(bytes); Rust `String::cmp` compares these byte sequences and
`String::len` counts them. -/
abbrev Str := List Nat

/-- Rust `u8::cmp` (numeric comparison) on byte values. -/
def cmpNat (a b : Nat) : Ordering :=
  if a < b then Ordering.lt else if b < a then Ordering.gt else Ordering.eq

/-- Rust `String::cmp`: lexicographic comparison of the underlying byte
sequences, a strict prefix comparing smaller. -/
def cmpBytes : Str → Str → Ordering
  | [], [] => Ordering.eq
  | [], _ :: _ => Ordering.lt
  | _ :: _, [] => Ordering.gt
  | a :: as, b :: bs =>
    match cmpNat a b with
    | Ordering.eq => cmpBytes as bs
    | o => o

/-- The comparator of the `sort_by` closure in `RegExp::sort`
(lines 59-62): `a.len().cmp(&b.len())`, ties broken by `a.cmp(&b)`. -/
def canonCmp (a b : Str) : Ordering :=
  match cmpNat a.length b.length with
  | Ordering.eq => cmpBytes a b
  | o => o

/-- The non-strict order sorted by `test_cases.sort()` (line 57), which
uses the plain `Ord` of `String`. -/
def lexLE (a b : Str) : Prop := cmpBytes a b ≠ Ordering.gt

/-- Strict byte-lexicographic order. -/
def lexLT (a b : Str) : Prop := cmpBytes a b = Ordering.lt

/-- The non-strict order sorted by the `sort_by` call. -/
def canonLE (a b : Str) : Prop := canonCmp a b ≠ Ordering.gt

instance : DecidableRel lexLE := fun a b =>
  inferInstanceAs (Decidable (cmpBytes a b ≠ Ordering.gt))

instance : DecidableRel canonLE := fun a b =>
  inferInstanceAs (Decidable (canonCmp a b ≠ Ordering.gt))

theorem cmpNat_eq_lt {a b : Nat} : cmpNat a b = Ordering.lt ↔ a < b := by
  unfold cmpNat
  split <;> rename_i h1
  · simp [h1]
  · split <;> rename_i h2 <;> simp <;> omega

theorem cmpNat_eq_gt {a b : Nat} : cmpNat a b = Ordering.gt ↔ b < a := by
  unfold cmpNat
  split <;> rename_i h1
  · simp; omega
  · split <;> rename_i h2 <;> simp <;> omega

theorem cmpNat_eq_eq {a b : Nat} : cmpNat a b = Ordering.eq ↔ a = b := by
  unfold cmpNat
  split <;> rename_i h1
  · simp; omega
  · split <;> rename_i h2 <;> simp <;> omega

theorem cmpBytes_self (a : Str) : cmpBytes a a = Ordering.eq := by
  induction a with
  | nil => rfl
  | cons x xs ih =>
    have hx : cmpNat x x = Ordering.eq := cmpNat_eq_eq.mpr rfl
    simp [cmpBytes, hx, ih]

theorem eq_of_cmpBytes_eq : ∀ {a b : Str}, cmpBytes a b = Ordering.eq → a = b := by
  intro a
  induction a with
  | nil => intro b h; cases b with
    | nil => rfl
    | cons y ys => simp [cmpBytes] at h
  | cons x xs ih =>
    intro b h
    cases b with
    | nil => simp [cmpBytes] at h
    | cons y ys =>
      simp only [cmpBytes] at h
      cases hc : cmpNat x y with
      | lt => rw [hc] at h; exact absurd h (by simp)
      | gt => rw [hc] at h; exact absurd h (by simp)
      | eq =>
        rw [hc] at h
        have hxy : x = y := cmpNat_eq_eq.mp hc
        rw [hxy, ih h]

theorem cmpBytes_swap : ∀ (a b : Str), (cmpBytes a b).swap = cmpBytes b a := by
  intro a
  induction a with
  | nil => intro b; cases b <;> rfl
  | cons x xs ih =>
    intro b
    cases b with
    | nil => rfl
    | cons y ys =>
      simp only [cmpBytes]
      cases hc : cmpNat x y with
      | eq =>
        have hxy : x = y := cmpNat_eq_eq.mp hc
        have hyx : cmpNat y x = Ordering.eq := cmpNat_eq_eq.mpr hxy.symm
        simp [hyx, ih]
      | lt =>
        have hyx : cmpNat y x = Ordering.gt := cmpNat_eq_gt.mpr (cmpNat_eq_lt.mp hc)
        simp [hyx, Ordering.swap]
      | gt =>
        have hyx : cmpNat y x = Ordering.lt := cmpNat_eq_lt.mpr (cmpNat_eq_gt.mp hc)
        simp [hyx, Ordering.swap]

theorem cmpBytes_lt_of_lt_of_le :
    ∀ {a b c : Str}, cmpBytes a b = Ordering.lt → cmpBytes b c ≠ Ordering.gt →
      cmpBytes a c = Ordering.lt := by
  intro a
  induction a with
  | nil =>
    intro b c hab hbc
    cases b with
    | nil => simp [cmpBytes] at hab
    | cons y ys =>
      cases c with
      | nil => simp [cmpBytes] at hbc
      | cons z zs => simp [cmpBytes]
  | cons x xs ih =>
    intro b c hab hbc
    cases b with
    | nil => simp [cmpBytes] at hab
    | cons y ys =>
      cases c with
      | nil => simp [cmpBytes] at hbc
      | cons z zs =>
        simp only [cmpBytes] at hab hbc ⊢
        cases hxy : cmpNat x y with
        | gt => rw [hxy] at hab; exact absurd hab (by simp)
        | lt =>
          have hxyn : x < y := cmpNat_eq_lt.mp hxy
          cases hyz : cmpNat y z with
          | gt => rw [hyz] at hbc; exact absurd rfl hbc
          | lt =>
            have : x < z := hxyn.trans (cmpNat_eq_lt.mp hyz)
            simp [cmpNat_eq_lt.mpr this]
          | eq =>
            have hyzn : y = z := cmpNat_eq_eq.mp hyz
            have : x < z := hyzn ▸ hxyn
            simp [cmpNat_eq_lt.mpr this]
        | eq =>
          rw [hxy] at hab
          have hxyn : x = y := cmpNat_eq_eq.mp hxy
          cases hyz : cmpNat y z with
          | gt => rw [hyz] at hbc; exact absurd rfl hbc
          | lt =>
            have : x < z := hxyn ▸ cmpNat_eq_lt.mp hyz
            simp [cmpNat_eq_lt.mpr this]
          | eq =>
            have hyzn : y = z := cmpNat_eq_eq.mp hyz
            have hxz : cmpNat x z = Ordering.eq := cmpNat_eq_eq.mpr (hxyn.trans hyzn)
            rw [hyz] at hbc
            simp only [hxz]
            exact ih hab hbc

theorem cmpBytes_le_trans {a b c : Str}
    (h1 : cmpBytes a b ≠ Ordering.gt) (h2 : cmpBytes b c ≠ Ordering.gt) :
    cmpBytes a c ≠ Ordering.gt := by
  cases q : cmpBytes a b with
  | lt => simp [cmpBytes_lt_of_lt_of_le q h2]
  | eq => rw [eq_of_cmpBytes_eq q]; exact h2
  | gt => exact absurd q h1

theorem lexLT_of_le_of_ne {a b : Str} (h : lexLE a b) (hne : a ≠ b) : lexLT a b := by
  unfold lexLE at h
  unfold lexLT
  cases q : cmpBytes a b with
  | lt => rfl
  | eq => exact absurd (eq_of_cmpBytes_eq q) hne
  | gt => exact absurd q h

theorem lexLT_ne {a b : Str} (h : lexLT a b) : a ≠ b := by
  intro he
  rw [he] at h
  unfold lexLT at h
  rw [cmpBytes_self] at h
  exact absurd h (by simp)

instance : IsTrans Str lexLE where
  trans := fun _ _ _ h1 h2 => cmpBytes_le_trans h1 h2

instance : IsTotal Str lexLE where
  total := by
    intro a b
    unfold lexLE
    cases q : cmpBytes a b with
    | lt => left; simp
    | eq => left; simp
    | gt =>
      right
      have := cmpBytes_swap a b
      rw [q] at this
      rw [← this]
      simp [Ordering.swap]

theorem canonLE_iff {a b : Str} :
    canonLE a b ↔
      a.length < b.length ∨ (a.length = b.length ∧ cmpBytes a b ≠ Ordering.gt) := by
  unfold canonLE canonCmp
  cases q : cmpNat a.length b.length with
  | lt =>
    simp only [q]
    have := cmpNat_eq_lt.mp q
    simp [this]
  | eq =>
    simp only [q]
    have := cmpNat_eq_eq.mp q
    constructor
    · intro h; exact Or.inr ⟨this, h⟩
    · intro h
      rcases h with h | h
      · omega
      · exact h.2
  | gt =>
    simp only [q]
    have := cmpNat_eq_gt.mp q
    constructor
    · intro h; exact absurd rfl h
    · intro h
      rcases h with h | h
      · omega
      · omega

instance : IsTrans Str canonLE where
  trans := by
    intro a b c h1 h2
    rw [canonLE_iff] at h1 h2 ⊢
    rcases h1 with h1 | ⟨h1e, h1b⟩
    · rcases h2 with h2 | ⟨h2e, _⟩
      · left; omega
      · left; omega
    · rcases h2 with h2 | ⟨h2e, h2b⟩
      · left; omega
      · exact Or.inr ⟨h1e.trans h2e, cmpBytes_le_trans h1b h2b⟩

instance : IsTotal Str canonLE where
  total := by
    intro a b
    rw [canonLE_iff, canonLE_iff]
    rcases Nat.lt_trichotomy a.length b.length with h | h | h
    · left; left; exact h
    · rcases (IsTotal.total (r := lexLE) a b) with hb | hb
      · left; exact Or.inr ⟨h, hb⟩
      · right; exact Or.inr ⟨h.symm, hb⟩
    · right; left; exact h

instance : IsAntisymm Str canonLE where
  antisymm := by
    intro a b h1 h2
    rw [canonLE_iff] at h1 h2
    rcases h1 with h1 | ⟨h1e, h1b⟩
    · rcases h2 with h2 | ⟨h2e, _⟩
      · omega
      · omega
    · rcases h2 with h2 | ⟨h2e, h2b⟩
      · omega
      · have := cmpBytes_swap a b
        cases q : cmpBytes a b with
        | lt => rw [q] at this; rw [← this] at h2b; exact absurd rfl h2b
        | eq => exact eq_of_cmpBytes_eq q
        | gt => exact absurd q h1b

/-- Rust `Vec::dedup` (line 58): remove consecutive repeated elements
(equal consecutive elements are collapsed to one). -/
def dedupConsec : List Str → List Str
  | [] => []
  | a :: rest =>
    match rest with
    | [] => [a]
    | b :: _ => if a = b then dedupConsec rest else a :: dedupConsec rest

/-- `RegExp::sort` (lines 56-63): `test_cases.sort()` (lexicographic),
`test_cases.dedup()`, then the stable `sort_by` with the
length-then-lexicographic comparator.  Rust's sorts are stable, so they
are modelled extensionally by the stable `List.insertionSort`. -/
def RegExp.sort (test_cases : List Str) : List Str :=
  List.insertionSort canonLE (dedupConsec (List.insertionSort lexLE test_cases))

/-- `RegExp::convert_to_lowercase` (lines 49-54): replace every example
by its lowercase form.  `str::to_lowercase` is external; it is the
parameter `lower`. -/
def RegExp.convert_to_lowercase (lower : Str → Str) (test_cases : List Str) : List Str :=
  test_cases.map lower

/-- The Canonicalizer: the first two statements of `RegExp::from`
(lines 34-38) — lowercase every example when case-insensitive matching
is requested, then `RegExp::sort`. -/
def RegExp.canonicalize (lower : Str → Str) (config : RegExpConfig)
    (test_cases : List Str) : List Str :=
  RegExp.sort
    (if config.is_case_insensitive_matching then
      RegExp.convert_to_lowercase lower test_cases
    else test_cases)

theorem mem_dedupConsec : ∀ {l : List Str} {x : Str}, x ∈ dedupConsec l → x ∈ l := by
  intro l
  induction l with
  | nil => intro x hx; simp [dedupConsec] at hx
  | cons a rest ih =>
    intro x hx
    cases rest with
    | nil => simpa [dedupConsec] using hx
    | cons b t =>
      simp only [dedupConsec] at hx
      by_cases hab : a = b
      · rw [if_pos hab] at hx
        exact List.mem_cons_of_mem a (ih hx)
      · rw [if_neg hab] at hx
        rcases List.mem_cons.mp hx with h | h
        · exact h ▸ List.mem_cons_self a _
        · exact List.mem_cons_of_mem a (ih h)

theorem dedupConsec_cons_cons (a b : Str) (t : List Str) :
    dedupConsec (a :: b :: t) =
      if a = b then dedupConsec (b :: t) else a :: dedupConsec (b :: t) := rfl

theorem dedupConsec_eq_self : ∀ {l : List Str}, l.Nodup → dedupConsec l = l := by
  intro l
  induction l with
  | nil => intro _; rfl
  | cons a rest ih =>
    intro h
    cases rest with
    | nil => rfl
    | cons b t =>
      have hab : a ≠ b := by
        intro he
        exact (List.nodup_cons.mp h).1 (he ▸ List.mem_cons_self b t)
      rw [dedupConsec_cons_cons, if_neg hab, ih (List.nodup_cons.mp h).2]

theorem pairwise_lt_dedupConsec :
    ∀ {l : List Str}, List.Pairwise lexLE l → List.Pairwise lexLT (dedupConsec l) := by
  intro l
  induction l with
  | nil => intro _; simp [dedupConsec]
  | cons a rest ih =>
    intro h
    have hhead : ∀ x ∈ rest, lexLE a x := (List.pairwise_cons.mp h).1
    have htail : List.Pairwise lexLE rest := (List.pairwise_cons.mp h).2
    cases rest with
    | nil => simp [dedupConsec]
    | cons b t =>
      simp only [dedupConsec]
      by_cases hab : a = b
      · rw [if_pos hab]
        exact ih htail
      · rw [if_neg hab]
        refine List.pairwise_cons.mpr ⟨?_, ih htail⟩
        intro x hx
        have hxmem : x ∈ b :: t := mem_dedupConsec hx
        have haltb : lexLT a b :=
          lexLT_of_le_of_ne (hhead b (List.mem_cons_self b t)) hab
        rcases List.mem_cons.mp hxmem with hxb | hxt
        · exact hxb ▸ haltb
        · have hbx : lexLE b x := (List.pairwise_cons.mp htail).1 x hxt
          exact cmpBytes_lt_of_lt_of_le haltb hbx

theorem pairwise_and_helper {α : Type} {R S : α → α → Prop} :
    ∀ {l : List α}, l.Pairwise R → l.Pairwise S →
      l.Pairwise (fun a b => R a b ∧ S a b) := by
  intro l
  induction l with
  | nil => intro _ _; simp
  | cons a rest ih =>
    intro h1 h2
    refine List.pairwise_cons.mpr ⟨?_, ?_⟩
    · intro x hx
      exact ⟨(List.pairwise_cons.mp h1).1 x hx, (List.pairwise_cons.mp h2).1 x hx⟩
    · exact ih (List.pairwise_cons.mp h1).2 (List.pairwise_cons.mp h2).2

theorem sort_sorted (ts : List Str) : List.Sorted canonLE (RegExp.sort ts) :=
  List.sorted_insertionSort canonLE _

theorem sort_nodup (ts : List Str) : (RegExp.sort ts).Nodup := by
  have h1 : List.Sorted lexLE (List.insertionSort lexLE ts) :=
    List.sorted_insertionSort lexLE ts
  have h2 := pairwise_lt_dedupConsec h1
  have h3 : (dedupConsec (List.insertionSort lexLE ts)).Nodup :=
    h2.imp fun hlt => lexLT_ne hlt
  exact ((List.perm_insertionSort canonLE _).nodup_iff).mpr h3

theorem mem_sort {ts : List Str} {x : Str} (h : x ∈ RegExp.sort ts) : x ∈ ts := by
  unfold RegExp.sort at h
  have h1 := (List.perm_insertionSort canonLE _).mem_iff.mp h
  have h2 := mem_dedupConsec h1
  exact (List.perm_insertionSort lexLE _).mem_iff.mp h2

theorem sort_eq_self {l : List Str} (hs : List.Sorted canonLE l) (hn : l.Nodup) :
    RegExp.sort l = l := by
  unfold RegExp.sort
  have p1 : List.Perm (List.insertionSort lexLE l) l := List.perm_insertionSort lexLE l
  have hn1 : (List.insertionSort lexLE l).Nodup := p1.nodup_iff.mpr hn
  rw [dedupConsec_eq_self hn1]
  exact List.eq_of_perm_of_sorted
    ((List.perm_insertionSort canonLE _).trans p1)
    (List.sorted_insertionSort canonLE _) hs

theorem map_fix_of_mem {α : Type} {f : α → α} :
    ∀ {l : List α}, (∀ x ∈ l, f x = x) → l.map f = l := by
  intro l
  induction l with
  | nil => intro _; rfl
  | cons a rest ih =>
    intro h
    simp only [List.map_cons]
    rw [h a (List.mem_cons_self a rest), ih fun x hx => h x (List.mem_cons_of_mem a hx)]

/-- Claim C1: after canonicalization, the example sequence contains no
duplicates and is sorted primarily by string length ascending, ties
broken by the lexicographic order of the underlying code units. -/
theorem canonicalization_nodup_sorted (lower : Str → Str) (config : RegExpConfig)
    (test_cases : List Str) :
    (RegExp.canonicalize lower config test_cases).Nodup ∧
      (RegExp.canonicalize lower config test_cases).Pairwise
        (fun a b =>
          a.length < b.length ∨
            (a.length = b.length ∧ cmpBytes a b = Ordering.lt)) := by
  unfold RegExp.canonicalize
  refine ⟨sort_nodup _, ?_⟩
  have hs := sort_sorted
    (if config.is_case_insensitive_matching then
      RegExp.convert_to_lowercase lower test_cases
    else test_cases)
  have hn := sort_nodup
    (if config.is_case_insensitive_matching then
      RegExp.convert_to_lowercase lower test_cases
    else test_cases)
  refine (pairwise_and_helper hs hn).imp ?_
  intro a b hab
  rcases canonLE_iff.mp hab.1 with h | ⟨he, hb⟩
  · exact Or.inl h
  · exact Or.inr ⟨he, lexLT_of_le_of_ne hb hab.2⟩

/-- Claim C8: canonicalization is idempotent — applying the
Canonicalizer (lowercasing when case-insensitive matching is enabled,
then dedup, then the length/lexicographic sort) twice yields the same
sequence as applying it once.  The external `str::to_lowercase` enters
as the parameter `lower`, together with its idempotence. -/
theorem canonicalization_idempotent (lower : Str → Str) (config : RegExpConfig)
    (test_cases : List Str) (hlower : ∀ s, lower (lower s) = lower s) :
    RegExp.canonicalize lower config (RegExp.canonicalize lower config test_cases) =
      RegExp.canonicalize lower config test_cases := by
  unfold RegExp.canonicalize
  cases hci : config.is_case_insensitive_matching with
  | false =>
    simp only [hci, Bool.false_eq_true, if_false]
    exact sort_eq_self (sort_sorted test_cases) (sort_nodup test_cases)
  | true =>
    simp only [hci, if_true]
    have hfix : RegExp.convert_to_lowercase lower
        (RegExp.sort (RegExp.convert_to_lowercase lower test_cases)) =
        RegExp.sort (RegExp.convert_to_lowercase lower test_cases) := by
      unfold RegExp.convert_to_lowercase
      refine map_fix_of_mem ?_
      intro x hx
      have hx2 : x ∈ (RegExp.convert_to_lowercase lower test_cases) := mem_sort hx
      rcases List.mem_map.mp hx2 with ⟨y, _, hy⟩
      rw [← hy, hlower]
    rw [hfix]
    exact sort_eq_self (sort_sorted _) (sort_nodup _)

/-- Witness for C8 at a concrete input (with `lower` instantiated by the
identity, which is idempotent). -/
theorem canonicalization_idempotent_witness :
    RegExp.canonicalize id ⟨true, false, false, false, false, false⟩
        (RegExp.canonicalize id ⟨true, false, false, false, false, false⟩
          [[1], [0], [0]]) =
      RegExp.canonicalize id ⟨true, false, false, false, false, false⟩
        [[1], [0], [0]] :=
  canonicalization_idempotent id ⟨true, false, false, false, false, false⟩
    [[1], [0], [0]] (fun _ => rfl)

/-- Number of UTF-8 leading (non-continuation) bytes of a byte string:
its character count.  A byte is a continuation byte iff it lies in
the interval [128, 192). -/
def utf8CharCount (s : Str) : Nat :=
  (s.filter fun b => decide (b < 128) || decide (192 ≤ b)).length

/-- Claim C10: the canonical sort's primary key is the UTF-8 byte
length, not the character count: elements never get longer (in bytes)
later in the output, and the three-byte one-character string for
U+20AC sorts after the two-byte two-character string of `a`, `b`. -/
theorem sort_primary_key_byte_length :
    (∀ ts : List Str,
      (RegExp.sort ts).Pairwise fun a b => a.length ≤ b.length) ∧
      RegExp.sort [[226, 130, 172], [97, 98]] = [[97, 98], [226, 130, 172]] ∧
      utf8CharCount [226, 130, 172] < utf8CharCount [97, 98] ∧
      ([97, 98] : Str).length < ([226, 130, 172] : Str).length := by
  refine ⟨?_, by decide, by decide, by decide⟩
  intro ts
  refine (sort_sorted ts).imp ?_
  intro a b hab
  rcases canonLE_iff.mp hab with h | ⟨he, _⟩
  · omega
  · omega

/-- Rendered text: a sequence of characters (Rust `String` viewed as
its characters, as consumed by `Display` and `apply_verbose_mode`). -/
abbrev RStr := List Char

/-- The escape character U+001B introducing terminal color sequences. -/
def escChar : Char := '\x1b'

/-- The vertical-tab character U+000B. -/
def vtab : Char := '\x0b'

/-- The colorizable output fragments used by `RegExp::fmt`
(`ColorizableString`, defined in the external `crate::char`); the
variant names are the ones used in `regexp.rs` (lines 96-112). -/
inductive ColorizableString where
  | IgnoreCaseFlag
  | EmptyString
  | VerboseModeFlag
  | Caret
  | CapturingLeftParenthesis
  | NonCapturingLeftParenthesis
  | RightParenthesis
  | DollarSign

/-- Modelled from the spec: the plain text of each decoration — the
inline case-insensitivity flag, the verbose-mode flag marker, the
anchors, and the capturing/non-capturing grouping tokens (the
`to_colorized_string` implementation lives in the external
`crate::char`). -/
def ColorizableString.text : ColorizableString → RStr
  | ColorizableString.IgnoreCaseFlag => ['(', '?', 'i', ')']
  | ColorizableString.EmptyString => []
  | ColorizableString.VerboseModeFlag => ['(', '?', 'x', ')']
  | ColorizableString.Caret => ['^']
  | ColorizableString.CapturingLeftParenthesis => ['(']
  | ColorizableString.NonCapturingLeftParenthesis => ['(', '?', ':']
  | ColorizableString.RightParenthesis => [')']
  | ColorizableString.DollarSign => ['$']

/-- Modelled from the spec: each colorized decoration carries a color
introducer drawn from the fixed palette recognized by
`VERBOSE_MODE_REGEX`; the per-variant assignment is not fixed by the
sources at hand, so one palette entry is chosen per variant. -/
def ColorizableString.colorCode : ColorizableString → RStr
  | ColorizableString.IgnoreCaseFlag => ['1', ';', '3', '5']
  | ColorizableString.EmptyString => ['1', ';', '3', '5']
  | ColorizableString.VerboseModeFlag => ['1', ';', '3', '5']
  | ColorizableString.Caret => ['1', ';', '3', '3']
  | ColorizableString.CapturingLeftParenthesis => ['1', ';', '3', '2']
  | ColorizableString.NonCapturingLeftParenthesis => ['1', ';', '3', '2']
  | ColorizableString.RightParenthesis => ['1', ';', '3', '2']
  | ColorizableString.DollarSign => ['1', ';', '3', '3']

/-- Modelled from the spec: `to_colorized_string` — the plain text,
wrapped between a color introducer and the color reset when output
colorization is enabled; the empty decoration stays empty. -/
def ColorizableString.to_colorized_string (s : ColorizableString)
    (colorized : Bool) : RStr :=
  if colorized then
    match s with
    | ColorizableString.EmptyString => []
    | _ =>
      escChar :: '[' :: s.colorCode ++ 'm' :: s.text ++ [escChar, '[', '0', 'm']
  else s.text

/-- The `ignore_case_flag` decoration resolved in `RegExp::fmt`
(lines 98-102). -/
def ignoreCaseFlagStr (config : RegExpConfig) : RStr :=
  (if config.is_case_insensitive_matching then ColorizableString.IgnoreCaseFlag
   else ColorizableString.EmptyString).to_colorized_string config.is_output_colorized

/-- The `verbose_mode_flag` decoration (line 103). -/
def verboseFlagStr (config : RegExpConfig) : RStr :=
  ColorizableString.VerboseModeFlag.to_colorized_string config.is_output_colorized

/-- The `left_anchor` decoration (line 104). -/
def leftAnchorStr (config : RegExpConfig) : RStr :=
  ColorizableString.Caret.to_colorized_string config.is_output_colorized

/-- The `left_parenthesis` decoration (lines 105-109). -/
def leftParenStr (config : RegExpConfig) : RStr :=
  (if config.is_capturing_group_enabled then ColorizableString.CapturingLeftParenthesis
   else ColorizableString.NonCapturingLeftParenthesis).to_colorized_string
    config.is_output_colorized

/-- The `right_parenthesis` decoration (line 110). -/
def rightParenStr (config : RegExpConfig) : RStr :=
  ColorizableString.RightParenthesis.to_colorized_string config.is_output_colorized

/-- The `right_anchor` decoration (line 111). -/
def rightAnchorStr (config : RegExpConfig) : RStr :=
  ColorizableString.DollarSign.to_colorized_string config.is_output_colorized

/-- Modelled from the spec: the expression-tree node variants (spec
sections 3 and 9).  The tree is produced by the external Expression
Synthesizer (`crate::ast`); `RegExp::fmt` consumes only the root
variant and the rendered body `self.ast.to_string()`, so each node
carries its externally rendered body. -/
inductive Expression where
  | Literal (body : RStr)
  | CharacterClass (body : RStr)
  | Repetition (body : RStr)
  | Concatenation (body : RStr)
  | Alternation (body : RStr)

/-- The externally rendered body of an expression node
(`Expression::to_string`). -/
def Expression.to_string : Expression → RStr
  | Expression.Literal b => b
  | Expression.CharacterClass b => b
  | Expression.Repetition b => b
  | Expression.Concatenation b => b
  | Expression.Alternation b => b

/-- Whether the root node is an `Expression::Alternation`. -/
def Expression.isAlternation : Expression → Bool
  | Expression.Alternation _ => true
  | _ => false

/-- The `RegExp` value: the synthesized expression tree plus the
configuration (lines 28-31). -/
structure RegExp where
  ast : Expression
  config : RegExpConfig

/-- Rust `String::replace` with a single-character pattern. -/
def replaceChar (pat : Char) (rep : RStr) : RStr → RStr
  | [] => []
  | c :: rest =>
    if c = pat then rep ++ replaceChar pat rep rest else c :: replaceChar pat rep rest

/-- The string assembled by the `match` in `RegExp::fmt`
(lines 116-133): the alternation root is wrapped in the grouping
tokens, every other root is not. -/
def RegExp.rawRegexp (r : RegExp) : RStr :=
  match r.ast with
  | Expression.Alternation _ =>
    ignoreCaseFlagStr r.config ++ leftAnchorStr r.config ++ leftParenStr r.config ++
      r.ast.to_string ++ rightParenStr r.config ++ rightAnchorStr r.config
  | _ =>
    ignoreCaseFlagStr r.config ++ leftAnchorStr r.config ++ r.ast.to_string ++
      rightAnchorStr r.config

/-- Lines 135-137: replace every literal U+000B in the assembled string
with the two-character sequence backslash-`v`. -/
def RegExp.assemble (r : RegExp) : RStr :=
  let regexp := r.rawRegexp
  if vtab ∈ regexp then replaceChar vtab ['\\', 'v'] regexp else regexp

/-- The per-character form of the vertical-tab post-processing: U+000B
becomes backslash-`v`, every other character is untouched. -/
def vEsc (c : Char) : RStr := if c = vtab then ['\\', 'v'] else [c]

/-- The vertical-tab post-processing, character by character. -/
def vEscape : RStr → RStr
  | [] => []
  | c :: rest => vEsc c ++ vEscape rest

/-- The metacharacter set of `VERBOSE_MODE_REGEX` (single unescaped
metacharacter alternative, line 204). -/
def metaChars : RStr :=
  ['^', '(', ')', '{', '}', '[', ']', '|', '$', '*', '+', '?', '\\', '.', '-']

/-- The characters allowed after a backslash in the escaped
metacharacter alternative (line 202). -/
def escMetaChars : RStr :=
  ['^', '(', ')', '{', '}', '[', ']', '|', '$', '*', '+', '?', '\\', 'n', 'r', 't', 'v',
    '.', '-']

/-- The fixed color palette recognized by `VERBOSE_MODE_REGEX`
(lines 178-195), in source order. -/
def palette : List RStr :=
  [['1', ';', '3', '1'], ['1', ';', '3', '5'], ['1', ';', '3', '3'], ['1', ';', '3', '2'],
    ['1', ';', '3', '6'], ['1', '0', '4', ';', '3', '7'], ['4', '0', ';', '9', '3'],
    ['1', '0', '3', ';', '3', '0']]

/-- Whether `pat` occurs at the start of the second list. -/
def startsWithSeq : RStr → RStr → Bool
  | [], _ => true
  | _ :: _, [] => false
  | p :: ps, c :: cs => p == c && startsWithSeq ps cs

/-- The full color-introducer sequence for a palette code. -/
def colorIntroSeq (code : RStr) : RStr := escChar :: '[' :: code ++ ['m']

/-- Length of the optional color-introducer prefix matched at the start
of `s` (0 when none matches). -/
def introLen (s : RStr) : Nat :=
  match palette.find? (fun code => startsWithSeq (colorIntroSeq code) s) with
  | some code => (colorIntroSeq code).length
  | none => 0

/-- Index of the last occurrence of `c` in the list, if any. -/
def lastIdxOf (c : Char) : RStr → Option Nat
  | [] => none
  | x :: rest =>
    match lastIdxOf c rest with
    | some i => some (i + 1)
    | none => if x == c then some 0 else none

/-- Length of the leftmost-first, greedy match of the token-body
alternation of `VERBOSE_MODE_REGEX` (lines 197-207) at the start of
`s` (0 only for the empty string): the non-capturing group opener
`(?:`; a character class `[.+]` whose greedy interior runs to the last
`]` before any newline, with at least one character inside; an escaped
metacharacter; a single metacharacter; or a maximal run of
non-metacharacters. -/
def bodyLen (s : RStr) : Nat :=
  match s with
  | [] => 0
  | c :: rest =>
    if startsWithSeq ['(', '?', ':'] (c :: rest) then 3
    else if c = '[' then
      match lastIdxOf ']' (rest.takeWhile fun x => x ≠ '\n') with
      | some i => if 1 ≤ i then i + 2 else 1
      | none => 1
    else if c = '\\' then
      match rest with
      | d :: _ => if d ∈ escMetaChars then 2 else 1
      | [] => 1
    else if c ∈ metaChars then 1
    else ((c :: rest).takeWhile fun x => x ∉ metaChars).length

/-- The color-reset sequence (line 208). -/
def resetSeq : RStr := [escChar, '[', '0', 'm']

/-- Length of the optional color-reset suffix matched after the token
body (0 when absent). -/
def resetLen (s : RStr) : Nat := if startsWithSeq resetSeq s then 4 else 0

/-- Length of the full leftmost-first match of `VERBOSE_MODE_REGEX` at
the start of `s`: optional color introducer, token body, optional
color reset.  When the introducer consumes the whole input the body
cannot match after it, and matching backtracks to the body alone. -/
def tokenLen (s : RStr) : Nat :=
  let i := introLen s
  let b := bodyLen (s.drop i)
  if b = 0 then
    let b0 := bodyLen s
    if b0 = 0 then 0 else b0 + resetLen (s.drop b0)
  else i + b + resetLen (s.drop (i + b))

/-- Fuel-indexed tokenization: repeatedly take the leftmost match. -/
def tokenizeF : Nat → RStr → List RStr
  | 0, _ => []
  | _ + 1, [] => []
  | fuel + 1, c :: rest =>
    (c :: rest).take (tokenLen (c :: rest)) ::
      tokenizeF fuel ((c :: rest).drop (tokenLen (c :: rest)))

/-- `VERBOSE_MODE_REGEX.find_iter` over the rendered string: successive
leftmost matches.  Every nonempty suffix matches at its first
character, so the matches tile the string and consuming fuel equal to
the length is always enough. -/
def tokenize (s : RStr) : List RStr := tokenizeF s.length s

/-- The replacement chain applied to each matched token (lines
218-230): escape `#`; rewrite each of U+00A0, U+2000, U+2001, U+2002,
U+2003, U+2004, U+205F and U+0085 to the two-character sequence
backslash-`s`; escape the remaining ordinary spaces. -/
def escapeSubstr (t : RStr) : RStr :=
  replaceChar ' ' ['\\', ' ']
    (replaceChar '\u0085' ['\\', 's']
      (replaceChar ' ' ['\\', 's']
        (replaceChar ' ' ['\\', 's']
          (replaceChar ' ' ['\\', 's']
            (replaceChar ' ' ['\\', 's']
              (replaceChar ' ' ['\\', 's']
                (replaceChar ' ' ['\\', 's']
                  (replaceChar ' ' ['\\', 's']
                    (replaceChar '#' ['\\', '#'] t)))))))))

/-- The width of `usize` (a 64-bit target). -/
def usizeWidth : Nat := 2 ^ 64

/-- The wraparound value of the `usize` subtraction `nesting_level -= 1`
(line 235).  On underflow a debug build panics at this subtraction,
and a release build, having wrapped, panics in the same iteration when
line 238 computes the indentation (see `verboseStepChecked`). -/
def usizeSub1 (n : Nat) : Nat := (n + (usizeWidth - 1)) % usizeWidth

/-- `usize` increment with wraparound (`nesting_level += 1`, line 242). -/
def usizeAdd1 (n : Nat) : Nat := (n + 1) % usizeWidth

/-- Line 232: `substr.starts_with("[") && substr.ends_with("]")`. -/
def is_char_class (substr : RStr) : Bool :=
  (substr.head? == some '[') && (substr.getLast? == some ']')

/-- Whether `pat` occurs contiguously anywhere in the second list
(Rust `str::contains` with a string pattern). -/
def hasSub (pat : RStr) : RStr → Bool
  | [] => startsWithSeq pat []
  | c :: rest => startsWithSeq pat (c :: rest) || hasSub pat rest

/-- The decrement condition of line 234: not a character class, and an
unescaped `)` occurs in the token. -/
def closesGroup (substr : RStr) : Bool :=
  !is_char_class substr && substr.contains ')' && !hasSub ['\\', ')'] substr

/-- The increment condition of line 241: an unescaped `(` occurs in the
token (character classes are not excluded here). -/
def opensGroup (substr : RStr) : Bool :=
  substr.contains '(' && !hasSub ['\\', '('] substr

/-- One iteration of the token loop of `apply_verbose_mode`
(lines 217-244), acting on the accumulated lines and the `usize`
nesting level.  This total version carries the wraparound value of the
decrement throughout; it does not model the panic the source raises
on the underflow path (at level zero with a closing token a debug
build panics at the line-235 subtraction and a release build panics
with capacity overflow at the line-238 `"  ".repeat`, so no line is
emitted there) — `verboseStepChecked` keeps that panic path. -/
def verboseStep (st : List RStr × Nat) (match_part : RStr) : List RStr × Nat :=
  let substr := escapeSubstr match_part
  let lvl := if closesGroup substr then usizeSub1 st.2 else st.2
  (st.1 ++ [List.replicate (2 * lvl) ' ' ++ substr],
    if opensGroup substr then usizeAdd1 lvl else lvl)

/-- `Vec::join("\n")`. -/
def joinNL : List RStr → RStr
  | [] => []
  | [l] => l
  | l :: rest => l ++ '\n' :: joinNL rest

/-- `apply_verbose_mode` (lines 173-247): start from the verbose-mode
flag line, scan the tokens of the rendered string, and join the
emitted lines with newlines. -/
def apply_verbose_mode (regexp : RStr) (verbose_mode_flag : RStr) : RStr :=
  let st := List.foldl verboseStep ([verbose_mode_flag], 0) (tokenize regexp)
  joinNL st.1

/-- `Display::fmt` (lines 88-144): the assembled (vertical-tab-escaped)
string, routed through `apply_verbose_mode` when verbose mode is
enabled. -/
def RegExp.render (r : RegExp) : RStr :=
  if r.config.is_verbose_mode_enabled then
    apply_verbose_mode r.assemble (verboseFlagStr r.config)
  else r.assemble

/-- Modelled from the spec: applying a per-sequence in-place
transformation to every symbol sequence in order (the
`for cluster in clusters.iter_mut()` loops of lines 71-81). -/
def applyEach {α : Type} (f : α → α) : List α → List α
  | [] => []
  | c :: rest => f c :: applyEach f rest

/-- `RegExp::grapheme_clusters` (lines 65-84).  The external
`GraphemeCluster` type and its operations enter as parameters:
`fromStr` stands for `GraphemeCluster::from`, and the two folding
passes for `convert_to_char_classes` and `convert_repetitions`. -/
def RegExp.grapheme_clusters {α : Type} (fromStr : Str → RegExpConfig → α)
    (convert_to_char_classes : α → α) (convert_repetitions : α → α)
    (test_cases : List Str) (config : RegExpConfig) : List α :=
  let clusters := test_cases.map fun it => fromStr it config
  let clusters :=
    if config.is_char_class_feature_enabled then
      applyEach convert_to_char_classes clusters
    else clusters
  if config.is_repetition_converted then applyEach convert_repetitions clusters
  else clusters

theorem vEscape_append : ∀ a b : RStr, vEscape (a ++ b) = vEscape a ++ vEscape b := by
  intro a b
  induction a with
  | nil => rfl
  | cons c rest ih => simp [vEscape, ih]

theorem vEscape_eq_self : ∀ {l : RStr}, vtab ∉ l → vEscape l = l := by
  intro l
  induction l with
  | nil => intro _; rfl
  | cons c rest ih =>
    intro h
    have hc : c ≠ vtab := fun he => h (he ▸ List.mem_cons_self c rest)
    simp only [vEscape, vEsc, if_neg hc]
    rw [ih fun hm => h (List.mem_cons_of_mem c hm)]
    rfl

theorem replaceChar_vtab_eq_vEscape :
    ∀ l : RStr, replaceChar vtab ['\\', 'v'] l = vEscape l := by
  intro l
  induction l with
  | nil => rfl
  | cons c rest ih =>
    by_cases hc : c = vtab
    · simp [replaceChar, vEscape, vEsc, hc, ih]
    · simp [replaceChar, vEscape, vEsc, hc, ih]

theorem assemble_eq_vEscape (r : RegExp) : r.assemble = vEscape r.rawRegexp := by
  unfold RegExp.assemble
  by_cases h : vtab ∈ r.rawRegexp
  · simp only [if_pos h]
    exact replaceChar_vtab_eq_vEscape _
  · simp only [if_neg h]
    exact (vEscape_eq_self h).symm

theorem vtab_not_mem_decoration (v : ColorizableString) (b : Bool) :
    vtab ∉ v.to_colorized_string b := by
  cases v <;> cases b <;> decide

theorem vEscape_ignoreCaseFlagStr (config : RegExpConfig) :
    vEscape (ignoreCaseFlagStr config) = ignoreCaseFlagStr config :=
  vEscape_eq_self (vtab_not_mem_decoration _ _)

theorem vEscape_verboseFlagStr (config : RegExpConfig) :
    vEscape (verboseFlagStr config) = verboseFlagStr config :=
  vEscape_eq_self (vtab_not_mem_decoration _ _)

theorem vEscape_leftAnchorStr (config : RegExpConfig) :
    vEscape (leftAnchorStr config) = leftAnchorStr config :=
  vEscape_eq_self (vtab_not_mem_decoration _ _)

theorem vEscape_leftParenStr (config : RegExpConfig) :
    vEscape (leftParenStr config) = leftParenStr config :=
  vEscape_eq_self (vtab_not_mem_decoration _ _)

theorem vEscape_rightParenStr (config : RegExpConfig) :
    vEscape (rightParenStr config) = rightParenStr config :=
  vEscape_eq_self (vtab_not_mem_decoration _ _)

theorem vEscape_rightAnchorStr (config : RegExpConfig) :
    vEscape (rightAnchorStr config) = rightAnchorStr config :=
  vEscape_eq_self (vtab_not_mem_decoration _ _)

theorem rawRegexp_eq_of_alternation {r : RegExp} (h : r.ast.isAlternation = true) :
    r.rawRegexp =
      ignoreCaseFlagStr r.config ++ leftAnchorStr r.config ++ leftParenStr r.config ++
        r.ast.to_string ++ rightParenStr r.config ++ rightAnchorStr r.config := by
  rcases r with ⟨ast, config⟩
  cases ast with
  | Alternation b => rfl
  | Literal b => simp [Expression.isAlternation] at h
  | CharacterClass b => simp [Expression.isAlternation] at h
  | Repetition b => simp [Expression.isAlternation] at h
  | Concatenation b => simp [Expression.isAlternation] at h

theorem rawRegexp_eq_of_not_alternation {r : RegExp} (h : r.ast.isAlternation = false) :
    r.rawRegexp =
      ignoreCaseFlagStr r.config ++ leftAnchorStr r.config ++ r.ast.to_string ++
        rightAnchorStr r.config := by
  rcases r with ⟨ast, config⟩
  cases ast with
  | Alternation b => simp [Expression.isAlternation] at h
  | Literal b => rfl
  | CharacterClass b => rfl
  | Repetition b => rfl
  | Concatenation b => rfl

/-- Claim C9: for every expression tree and configuration, the
assembled rendered text has every literal U+000B replaced by the
two-character sequence backslash-`v` before the result is returned (or
passed to the verbose reformatter), and no other character is altered
by this post-processing step. -/
theorem vtab_postprocessing (r : RegExp) :
    r.assemble = vEscape r.rawRegexp ∧
      vEsc vtab = ['\\', 'v'] ∧
      (∀ c, c ≠ vtab → vEsc c = [c]) ∧
      (r.config.is_verbose_mode_enabled = true →
        r.render = apply_verbose_mode (vEscape r.rawRegexp) (verboseFlagStr r.config)) := by
  refine ⟨assemble_eq_vEscape r, by simp [vEsc], fun c hc => by simp [vEsc, hc], fun hv => ?_⟩
  simp [RegExp.render, hv, assemble_eq_vEscape]

/-- Witness for C9 at a concrete verbose configuration. -/
theorem vtab_postprocessing_witness :
    RegExp.render ⟨Expression.Literal [vtab], ⟨false, false, false, false, false, true⟩⟩ =
      apply_verbose_mode
        (vEscape
          (RegExp.rawRegexp
            ⟨Expression.Literal [vtab], ⟨false, false, false, false, false, true⟩⟩))
        (verboseFlagStr ⟨false, false, false, false, false, true⟩) :=
  (vtab_postprocessing _).2.2.2 rfl

/-- Claim C2: the rendered pattern wraps the (vertical-tab-escaped)
rendered body in the grouping tokens — the capturing or non-capturing
left token per configuration, plus the right token — exactly when the
root expression is an Alternation; every other root variant is
rendered without a wrapping group; and the non-verbose rendering is
the assembled string itself. -/
theorem grouping_iff_alternation (r : RegExp) :
    (r.ast.isAlternation = true →
      r.assemble =
        ignoreCaseFlagStr r.config ++ leftAnchorStr r.config ++ leftParenStr r.config ++
          vEscape r.ast.to_string ++ rightParenStr r.config ++ rightAnchorStr r.config) ∧
      (r.ast.isAlternation = false →
        r.assemble =
          ignoreCaseFlagStr r.config ++ leftAnchorStr r.config ++
            vEscape r.ast.to_string ++ rightAnchorStr r.config) ∧
      (r.config.is_verbose_mode_enabled = false → r.render = r.assemble) := by
  refine ⟨fun h => ?_, fun h => ?_, fun hv => by simp [RegExp.render, hv]⟩
  · rw [assemble_eq_vEscape, rawRegexp_eq_of_alternation h]
    simp [vEscape_append, vEscape_ignoreCaseFlagStr, vEscape_leftAnchorStr,
      vEscape_leftParenStr, vEscape_rightParenStr, vEscape_rightAnchorStr]
  · rw [assemble_eq_vEscape, rawRegexp_eq_of_not_alternation h]
    simp [vEscape_append, vEscape_ignoreCaseFlagStr, vEscape_leftAnchorStr,
      vEscape_rightAnchorStr]

/-- Witness for C2: a concrete alternation root is wrapped, a concrete
literal root is not, and a non-verbose rendering is the assembled
string. -/
theorem grouping_iff_alternation_witness :
    (RegExp.assemble ⟨Expression.Alternation ['a', '|', 'b'],
        ⟨false, false, false, false, false, false⟩⟩ =
      ignoreCaseFlagStr ⟨false, false, false, false, false, false⟩ ++
        leftAnchorStr ⟨false, false, false, false, false, false⟩ ++
        leftParenStr ⟨false, false, false, false, false, false⟩ ++
        vEscape (Expression.Alternation ['a', '|', 'b']).to_string ++
        rightParenStr ⟨false, false, false, false, false, false⟩ ++
        rightAnchorStr ⟨false, false, false, false, false, false⟩) ∧
      (RegExp.assemble ⟨Expression.Literal ['a'],
          ⟨false, false, false, false, false, false⟩⟩ =
        ignoreCaseFlagStr ⟨false, false, false, false, false, false⟩ ++
          leftAnchorStr ⟨false, false, false, false, false, false⟩ ++
          vEscape (Expression.Literal ['a']).to_string ++
          rightAnchorStr ⟨false, false, false, false, false, false⟩) ∧
      RegExp.render ⟨Expression.Literal ['a'],
          ⟨false, false, false, false, false, false⟩⟩ =
        RegExp.assemble ⟨Expression.Literal ['a'],
          ⟨false, false, false, false, false, false⟩⟩ :=
  ⟨(grouping_iff_alternation _).1 rfl, (grouping_iff_alternation _).2.1 rfl,
    (grouping_iff_alternation _).2.2 rfl⟩

/-- Claim C3 as stated fails: with case-insensitive matching enabled
the rendered non-verbose pattern begins with the inline
case-insensitivity flag, not with the left anchor decoration. -/
theorem anchor_claim_counterexample :
    ¬ ∃ rest,
        RegExp.render ⟨Expression.Literal ['a'],
            ⟨true, false, false, false, false, false⟩⟩ =
          leftAnchorStr ⟨true, false, false, false, false, false⟩ ++ rest := by
  rintro ⟨rest, hr⟩
  have h1 : RegExp.render ⟨Expression.Literal ['a'],
      ⟨true, false, false, false, false, false⟩⟩ =
      ['(', '?', 'i', ')', '^', 'a', '$'] := rfl
  have h2 : leftAnchorStr ⟨true, false, false, false, false, false⟩ = ['^'] := rfl
  rw [h1, h2, List.singleton_append] at hr
  injection hr with h3 h4
  exact absurd h3 (by decide)

/-- Claim C3 (amended): for every expression tree and every
configuration with verbose mode disabled, the rendered pattern begins
with the case-insensitivity flag decoration (empty unless
case-insensitive matching is enabled) followed by the left anchor
decoration, and ends with the right anchor decoration, regardless of
the root expression variant. -/
theorem anchors_wrap_non_verbose (r : RegExp)
    (h : r.config.is_verbose_mode_enabled = false) :
    (∃ rest,
      r.render = (ignoreCaseFlagStr r.config ++ leftAnchorStr r.config) ++ rest) ∧
      ∃ ini, r.render = ini ++ rightAnchorStr r.config := by
  have hr : r.render = vEscape r.rawRegexp := by
    simp [RegExp.render, h, assemble_eq_vEscape]
  have hshape : ∃ M, vEscape r.rawRegexp =
      ignoreCaseFlagStr r.config ++ leftAnchorStr r.config ++ M ++
        rightAnchorStr r.config := by
    cases hast : r.ast.isAlternation with
    | true =>
      refine ⟨leftParenStr r.config ++ vEscape r.ast.to_string ++
        rightParenStr r.config, ?_⟩
      rw [rawRegexp_eq_of_alternation hast]
      simp [vEscape_append, vEscape_ignoreCaseFlagStr, vEscape_leftAnchorStr,
        vEscape_leftParenStr, vEscape_rightParenStr, vEscape_rightAnchorStr]
    | false =>
      refine ⟨vEscape r.ast.to_string, ?_⟩
      rw [rawRegexp_eq_of_not_alternation hast]
      simp [vEscape_append, vEscape_ignoreCaseFlagStr, vEscape_leftAnchorStr,
        vEscape_rightAnchorStr]
  rcases hshape with ⟨M, hM⟩
  rw [hr, hM]
  constructor
  · exact ⟨M ++ rightAnchorStr r.config, by simp [List.append_assoc]⟩
  · exact ⟨ignoreCaseFlagStr r.config ++ leftAnchorStr r.config ++ M, by
      simp [List.append_assoc]⟩

/-- Witness for the amended C3 at a concrete non-verbose, colorized,
case-insensitive configuration. -/
theorem anchors_wrap_non_verbose_witness :
    (∃ rest,
      RegExp.render ⟨Expression.Concatenation ['a', 'b'],
          ⟨true, false, false, false, true, false⟩⟩ =
        (ignoreCaseFlagStr ⟨true, false, false, false, true, false⟩ ++
          leftAnchorStr ⟨true, false, false, false, true, false⟩) ++ rest) ∧
      ∃ ini,
        RegExp.render ⟨Expression.Concatenation ['a', 'b'],
            ⟨true, false, false, false, true, false⟩⟩ =
          ini ++ rightAnchorStr ⟨true, false, false, false, true, false⟩ :=
  anchors_wrap_non_verbose _ rfl

theorem applyEach_eq_map {α : Type} (f : α → α) :
    ∀ l : List α, applyEach f l = l.map f := by
  intro l
  induction l with
  | nil => rfl
  | cons a rest ih => simp [applyEach, ih]

/-- Claim C7: when both character-class folding and repetition folding
are enabled, the orchestrator applies character-class folding to every
symbol sequence before applying repetition folding to any sequence,
each pass per sequence in example order: the i-th output is the i-th
example segmented, then class-folded, then repetition-folded. -/
theorem feature_pass_order {α : Type} (fromStr : Str → RegExpConfig → α)
    (ccc crep : α → α) (test_cases : List Str) (config : RegExpConfig)
    (h1 : config.is_char_class_feature_enabled = true)
    (h2 : config.is_repetition_converted = true) :
    RegExp.grapheme_clusters fromStr ccc crep test_cases config =
      test_cases.map fun it => crep (ccc (fromStr it config)) := by
  unfold RegExp.grapheme_clusters
  simp [h1, h2, applyEach_eq_map, List.map_map, Function.comp]

/-- Witness for C7 with non-commuting folding passes at a concrete
configuration with both passes enabled. -/
theorem feature_pass_order_witness :
    RegExp.grapheme_clusters (fun it _ => it) (fun s => 0 :: s) List.reverse
        [[5], [6]] ⟨false, true, true, false, false, false⟩ = [[5, 0], [6, 0]] := by
  rw [feature_pass_order (fun it _ => it) (fun s => 0 :: s) List.reverse [[5], [6]]
    ⟨false, true, true, false, false, false⟩ rfl rfl]
  decide

theorem tokenizeF_nil : ∀ f : Nat, tokenizeF f [] = [] := by
  intro f
  cases f <;> rfl

theorem bodyLen_pos {s : RStr} (h : s ≠ []) : 1 ≤ bodyLen s := by
  cases s with
  | nil => exact absurd rfl h
  | cons c rest =>
    simp only [bodyLen]
    split
    · omega
    · split
      · split
        · split <;> omega
        · omega
      · split
        · split
          · split <;> omega
          · omega
        · split
          · omega
          · rename_i h1 h2 h3 h4
            rw [List.takeWhile_cons, if_pos (decide_eq_true h4)]
            simp

theorem tokenLen_pos {s : RStr} (h : s ≠ []) : 1 ≤ tokenLen s := by
  have hb0 : 1 ≤ bodyLen s := bodyLen_pos h
  simp only [tokenLen]
  split_ifs with h1 h2 <;> omega

theorem tokenizeF_fuel_eq :
    ∀ (n : Nat) (s : RStr) (f1 f2 : Nat), s.length ≤ n → s.length ≤ f1 →
      s.length ≤ f2 → tokenizeF f1 s = tokenizeF f2 s := by
  intro n
  induction n with
  | zero =>
    intro s f1 f2 hn _ _
    have hs : s = [] := List.length_eq_zero.mp (Nat.le_zero.mp hn)
    subst hs
    rw [tokenizeF_nil, tokenizeF_nil]
  | succ n ih =>
    intro s f1 f2 hn h1 h2
    cases s with
    | nil => rw [tokenizeF_nil, tokenizeF_nil]
    | cons c rest =>
      have hpos : 1 ≤ tokenLen (c :: rest) := tokenLen_pos (by simp)
      simp only [List.length_cons] at hn h1 h2
      cases f1 with
      | zero => omega
      | succ f1 =>
        cases f2 with
        | zero => omega
        | succ f2 =>
          simp only [tokenizeF]
          congr 1
          have hd : ((c :: rest).drop (tokenLen (c :: rest))).length ≤ rest.length := by
            rw [List.length_drop]
            simp only [List.length_cons]
            omega
          exact ih _ _ _ (by omega) (by omega) (by omega)

theorem tokenize_cons (c : Char) (rest : RStr) :
    tokenize (c :: rest) =
      (c :: rest).take (tokenLen (c :: rest)) ::
        tokenize ((c :: rest).drop (tokenLen (c :: rest))) := by
  have hpos : 1 ≤ tokenLen (c :: rest) := tokenLen_pos (by simp)
  unfold tokenize
  simp only [List.length_cons, tokenizeF]
  congr 1
  have hd : ((c :: rest).drop (tokenLen (c :: rest))).length ≤ rest.length := by
    rw [List.length_drop]
    simp only [List.length_cons]
    omega
  exact tokenizeF_fuel_eq rest.length _ _ _ hd hd (Nat.le_refl _)

theorem introLen_eq_zero {c : Char} (s : RStr) (h : c ≠ escChar) :
    introLen (c :: s) = 0 := by
  unfold introLen
  have hf : palette.find?
      (fun code => startsWithSeq (colorIntroSeq code) (c :: s)) = none := by
    rw [List.find?_eq_none]
    intro code _
    have hne : (escChar == c) = false := beq_eq_false_iff_ne.mpr fun he => h he.symm
    simp [colorIntroSeq, startsWithSeq, hne]
  rw [hf]

theorem resetLen_eq_zero {s : RStr} (h : s.head? ≠ some escChar) : resetLen s = 0 := by
  unfold resetLen
  cases s with
  | nil => rfl
  | cons c rest =>
    have hne : (escChar == c) = false := by
      rw [beq_eq_false_iff_ne]
      intro he
      exact h (by simp [he])
    simp [resetSeq, startsWithSeq, hne]

theorem takeWhile_append_of_all {p : Char → Bool} :
    ∀ {m l : RStr}, (∀ x ∈ m, p x = true) →
      (m ++ l).takeWhile p = m ++ l.takeWhile p := by
  intro m
  induction m with
  | nil => intro l _; rfl
  | cons a rest ih =>
    intro l h
    simp only [List.cons_append, List.takeWhile_cons]
    rw [if_pos (h a (List.mem_cons_self a rest)),
      ih fun x hx => h x (List.mem_cons_of_mem a hx)]

theorem lastIdxOf_eq_none {c : Char} : ∀ {l : RStr}, c ∉ l → lastIdxOf c l = none := by
  intro l
  induction l with
  | nil => intro _; rfl
  | cons x rest ih =>
    intro h
    have hx : (x == c) = false :=
      beq_eq_false_iff_ne.mpr fun he => h (he ▸ List.mem_cons_self x rest)
    have hr := ih fun hm => h (List.mem_cons_of_mem x hm)
    simp [lastIdxOf, hr, hx]

theorem lastIdxOf_append_last {c : Char} {t : RStr} (hnt : c ∉ t) :
    ∀ m : RStr, lastIdxOf c (m ++ c :: t) = some m.length := by
  intro m
  induction m with
  | nil => simp [lastIdxOf, lastIdxOf_eq_none hnt]
  | cons x rest ih => simp [lastIdxOf, ih]

theorem bodyLen_bracket (rest : RStr) :
    bodyLen ('[' :: rest) =
      match lastIdxOf ']' (rest.takeWhile fun x => x ≠ '\n') with
      | some i => if 1 ≤ i then i + 2 else 1
      | none => 1 := by
  have h0 : ('(' == '[') = false := by decide
  have h1 : startsWithSeq ['(', '?', ':'] ('[' :: rest) = false := by
    simp [startsWithSeq, h0]
  simp only [bodyLen, h1, Bool.false_eq_true, if_false, if_true, eq_self_iff_true]

/-- Claim C5 as stated fails: the character-class alternative of
`VERBOSE_MODE_REGEX` is greedy — it runs from `[` to the *last* `]`,
not to the next one.  The input `[ab][cd]` is scanned as one single
token instead of the two next-bracket spans. -/
theorem charclass_next_bracket_counterexample :
    tokenize ['[', 'a', 'b', ']', '[', 'c', 'd', ']'] =
        [['[', 'a', 'b', ']', '[', 'c', 'd', ']']] ∧
      (['[', 'a', 'b', ']', '[', 'c', 'd', ']'] : RStr) ≠ ['[', 'a', 'b', ']'] := by
  exact ⟨by decide, by decide⟩

/-- Claim C5 (amended): in the verbose reformatter's tokenization
grammar (longest-match, left to right), a character-class token is
recognized as a maximal bracketed span from a `[` to the *last* `]`
on the same line (greedy match), provided at least one character lies
between the brackets: whatever the interior `mid` holds (brackets
included) short of a newline, the scan takes the span up to the final
`]` as one token and continues after it. -/
theorem tokenLen_eq (s : RStr) :
    tokenLen s =
      if bodyLen (s.drop (introLen s)) = 0 then
        if bodyLen s = 0 then 0
        else bodyLen s + resetLen (s.drop (bodyLen s))
      else
        introLen s + bodyLen (s.drop (introLen s)) +
          resetLen (s.drop (introLen s + bodyLen (s.drop (introLen s)))) := rfl

theorem charclass_token_to_last_bracket (mid suffix : RStr)
    (hne : mid ≠ []) (hnl : '\n' ∉ mid) (hrb : ']' ∉ suffix)
    (hesc : suffix.head? ≠ some escChar) :
    tokenize ('[' :: (mid ++ ']' :: suffix)) =
      ('[' :: (mid ++ [']'])) :: tokenize suffix := by
  have hmidlen : 1 ≤ mid.length := List.length_pos.mpr hne
  have hs : '[' :: (mid ++ ']' :: suffix) = ('[' :: (mid ++ [']'])) ++ suffix := by
    simp
  have hlen1 : ('[' :: (mid ++ [']'])).length = mid.length + 2 := by simp
  have htw : ((mid ++ ']' :: suffix).takeWhile fun x => x ≠ '\n') =
      mid ++ ']' :: (suffix.takeWhile fun x => x ≠ '\n') := by
    have hall : ∀ x ∈ mid ++ [']'], (fun x => decide (x ≠ '\n')) x = true := by
      intro x hx
      rcases List.mem_append.mp hx with hx | hx
      · exact decide_eq_true fun he => hnl (he ▸ hx)
      · have : x = ']' := by simpa using hx
        subst this
        decide
    have := takeWhile_append_of_all (l := suffix) hall
    simpa using this
  have hlast : lastIdxOf ']' (mid ++ ']' :: (suffix.takeWhile fun x => x ≠ '\n')) =
      some mid.length := by
    apply lastIdxOf_append_last
    intro hm
    exact hrb ((List.takeWhile_sublist _).mem hm)
  have hbody : bodyLen ('[' :: (mid ++ ']' :: suffix)) = mid.length + 2 := by
    rw [bodyLen_bracket, htw, hlast]
    simp [hmidlen]
  have hintro : introLen ('[' :: (mid ++ ']' :: suffix)) = 0 :=
    introLen_eq_zero _ (by decide)
  have hdrop : ('[' :: (mid ++ ']' :: suffix)).drop (mid.length + 2) = suffix := by
    rw [hs, ← hlen1, List.drop_left]
  have htoken : tokenLen ('[' :: (mid ++ ']' :: suffix)) = mid.length + 2 := by
    rw [tokenLen_eq, hintro, List.drop_zero, hbody]
    rw [if_neg (by omega)]
    simp only [Nat.zero_add]
    rw [hdrop, resetLen_eq_zero hesc]
  rw [tokenize_cons, htoken, hdrop]
  congr 1
  rw [hs, ← hlen1, List.take_left]

/-- Witness for the amended C5: the interior may itself contain a
bracket pair, and the single recognized token still runs to the last
closing bracket. -/
theorem charclass_token_to_last_bracket_witness :
    tokenize ('[' :: (['a', 'b', ']', '[', 'c', 'd'] ++ ']' :: ['x'])) =
      ('[' :: (['a', 'b', ']', '[', 'c', 'd'] ++ [']'])) :: tokenize ['x'] :=
  charclass_token_to_last_bracket ['a', 'b', ']', '[', 'c', 'd'] ['x']
    (by decide) (by decide) (by decide) (by decide)

/-- Claim C4 as stated fails: a character-class token containing an
unescaped `(` does change the nesting level — the increment check of
the loop does not exclude character classes. -/
theorem charclass_level_counterexample :
    tokenize ['[', '(', ']'] = [['[', '(', ']']] ∧
      is_char_class (escapeSubstr ['[', '(', ']']) = true ∧
        (List.foldl verboseStep ([], 0) (tokenize ['[', '(', ']'])).2 = 1 ∧
          (verboseStep ([], 0) ['[', '(', ']']).2 ≠ 0 := by
  exact ⟨by decide, by decide, by decide, by decide⟩

/-- Claim C4 (amended): in the verbose reformatter, for every token in
the scanned stream, with `substr` the escaped token: if the token is
not a character class and contains an unescaped `)`, the (`usize`,
wrapping) decrement is applied before the token's line is emitted; the
line's leading indentation is two spaces per current nesting level;
if the token contains an unescaped `(`, the increment is applied after
the line is emitted; a character-class token (starting with `[` and
ending with `]`) never triggers the decrement, but it still triggers
the increment when it contains an unescaped `(`. -/
theorem verbose_step_bookkeeping (lines : List RStr) (lvl : Nat) (t : RStr) :
    (verboseStep (lines, lvl) t).1 =
        lines ++
          [List.replicate
              (2 * (if closesGroup (escapeSubstr t) then usizeSub1 lvl else lvl)) ' ' ++
            escapeSubstr t] ∧
      (verboseStep (lines, lvl) t).2 =
        (if opensGroup (escapeSubstr t) then
          usizeAdd1 (if closesGroup (escapeSubstr t) then usizeSub1 lvl else lvl)
        else if closesGroup (escapeSubstr t) then usizeSub1 lvl else lvl) ∧
      (is_char_class (escapeSubstr t) = true → closesGroup (escapeSubstr t) = false) ∧
      (is_char_class (escapeSubstr t) = true → opensGroup (escapeSubstr t) = false →
        (verboseStep (lines, lvl) t).2 = lvl) := by
  refine ⟨rfl, rfl, fun hc => ?_, fun hc ho => ?_⟩
  · simp [closesGroup, hc]
  · have h1 : closesGroup (escapeSubstr t) = false := by simp [closesGroup, hc]
    simp [verboseStep, h1, ho]

/-- Witness for the amended C4: a plain character-class token at level
3 leaves the level unchanged and is emitted with six spaces of
indentation. -/
theorem verbose_step_bookkeeping_witness :
    (verboseStep ([], 3) ['[', 'a', ']']).2 = 3 ∧
      (verboseStep ([], 3) ['[', 'a', ']']).1 =
        [List.replicate 6 ' ' ++ escapeSubstr ['[', 'a', ']']] := by
  constructor
  · exact (verbose_step_bookkeeping [] 3 ['[', 'a', ']']).2.2.2 (by decide) (by decide)
  · have h := (verbose_step_bookkeeping [] 3 ['[', 'a', ']']).1
    rw [h]
    decide

/-- Modelled from the spec: the idealized signed nesting level that the
failure-semantics sentence of spec section 4.5 describes — the same
token scan, but with a true integer decrement that can go below zero. -/
def intLevelStep (lvl : Int) (t : RStr) : Int :=
  let substr := escapeSubstr t
  let l1 := if closesGroup substr then lvl - 1 else lvl
  if opensGroup substr then l1 + 1 else l1

/-- One iteration of the token loop with the source's panic behavior
kept: the `usize` decrement of line 235 wraps (a debug build already
panics at the subtraction there), and line 238's
`"  ".repeat(nesting_level)` panics with capacity overflow — in
release builds too — as soon as the byte count `2 * nesting_level` no
longer fits in a `usize`.  The panic is the `Except.error` outcome; no
line is emitted for the token. -/
def verboseStepChecked (st : List RStr × Nat) (match_part : RStr) :
    Except Unit (List RStr × Nat) :=
  let substr := escapeSubstr match_part
  let lvl := if closesGroup substr then usizeSub1 st.2 else st.2
  if usizeWidth ≤ 2 * lvl then Except.error ()
  else
    Except.ok (st.1 ++ [List.replicate (2 * lvl) ' ' ++ substr],
      if opensGroup substr then usizeAdd1 lvl else lvl)

/-- The token scan with the panic propagated: a panicking iteration
aborts the whole loop. -/
def scanTokens : List RStr × Nat → List RStr → Except Unit (List RStr × Nat)
  | st, [] => Except.ok st
  | st, t :: ts =>
    match verboseStepChecked st t with
    | Except.error e => Except.error e
    | Except.ok st2 => scanTokens st2 ts

theorem scanTokens_cons (st : List RStr × Nat) (t : RStr) (ts : List RStr) :
    scanTokens st (t :: ts) =
      match verboseStepChecked st t with
      | Except.error e => Except.error e
      | Except.ok st2 => scanTokens st2 ts := rfl

theorem usizeSub1_of_pos {lvl : Nat} (h1 : 1 ≤ lvl) (h2 : lvl - 1 < usizeWidth) :
    usizeSub1 lvl = lvl - 1 := by
  have hW : 1 ≤ usizeWidth := by norm_num [usizeWidth]
  unfold usizeSub1
  have he : lvl + (usizeWidth - 1) = (lvl - 1) + usizeWidth := by omega
  rw [he, Nat.add_mod_right, Nat.mod_eq_of_lt h2]

/-- Claim C6 as stated fails: on a stream whose closers outnumber its
openers the `usize` nesting level does not go negative and the scan
does not continue — the decrement at level zero wraps to 2^64 - 1
(where the idealized signed level of the specification's sentence
would be -1), and the same iteration panics in every build, emitting
no line. -/
theorem negative_level_counterexample :
    tokenize [')'] = [[')']] ∧
      List.foldl intLevelStep 0 [[')']] = -1 ∧
      (List.foldl verboseStep ([], 0) [[')']]).2 = 2 ^ 64 - 1 ∧
      Int.ofNat ((List.foldl verboseStep ([], 0) [[')']]).2) ≠ -1 ∧
      verboseStepChecked ([], 0) [')'] = Except.error () := by
  exact ⟨by decide, by decide, by decide, by decide, rfl⟩

/-- Claim C6 (amended): the decrement carries no zero-guard — it is
applied unconditionally to every non-class token with an unescaped
`)` — but the level is an unsigned (`usize`) counter, so it never goes
negative: on the normal path (positive level, indentation in `usize`
range) the token's line is emitted at the decremented level and the
scan goes on, while at level zero the decrement wraps to 2^64 - 1 and
that same iteration panics in every build (debug at the subtraction,
release with capacity overflow at the two-spaces-per-level
indentation, whose byte count 2 * (2^64 - 1) exceeds the `usize`
range), so no line is emitted and the scan aborts whatever tokens
follow. -/
theorem unconditional_decrement_panics :
    usizeSub1 0 = 2 ^ 64 - 1 ∧
      usizeWidth ≤ 2 * usizeSub1 0 ∧
      (∀ (lines : List RStr) (lvl : Nat), 1 ≤ lvl → 2 * (lvl - 1) < usizeWidth →
        verboseStepChecked (lines, lvl) [')'] =
          Except.ok (lines ++ [List.replicate (2 * (lvl - 1)) ' ' ++ [')']],
            lvl - 1)) ∧
      (∀ lines : List RStr, verboseStepChecked (lines, 0) [')'] = Except.error ()) ∧
      ∀ (lines : List RStr) (ts : List RStr),
        scanTokens (lines, 0) ([')'] :: ts) = Except.error () := by
  have hesc : escapeSubstr [')'] = [')'] := by decide
  have hc : closesGroup [')'] = true := by decide
  have ho : opensGroup [')'] = false := by decide
  have herr : ∀ lines : List RStr,
      verboseStepChecked (lines, 0) [')'] = Except.error () := by
    intro lines
    have hcap : usizeWidth ≤ 2 * usizeSub1 0 := by decide
    simp [verboseStepChecked, hesc, hc, hcap]
  refine ⟨by decide, by decide, ?_, herr, ?_⟩
  · intro lines lvl h1 h2
    have hsub : usizeSub1 lvl = lvl - 1 := usizeSub1_of_pos h1 (by omega)
    have hnc : ¬ (usizeWidth ≤ 2 * (lvl - 1)) := by omega
    simp [verboseStepChecked, hesc, hc, ho, hsub, hnc]
  · intro lines ts
    rw [scanTokens_cons, herr lines]

/-- Witness for the amended C6: at level 1 a closer token is emitted at
the decremented level zero with no indentation (the panic conjuncts of
the theorem carry no hypotheses). -/
theorem unconditional_decrement_panics_witness :
    verboseStepChecked ([], 1) [')'] = Except.ok ([[')']], 0) := by
  have h := unconditional_decrement_panics.2.2.1 [] 1 (by decide) (by decide)
  simpa using h
